import Mathlib

/-!
Verification of the neural-compressor reference model
(`scripts/reference_model.py`, `scripts/process_eeg.py`).

The Python code is shallowly embedded as follows.

* Python `float` values are modelled as exact rationals (`ℚ`).  The scipy
  call `signal.lfilter(b, a, data)` is modelled by the direct-form
  difference equation it implements, in exact rational arithmetic.
* Python arbitrary-precision `int` (and the numpy `int32`/`int64` values,
  none of which can overflow before the explicit masking steps) are
  modelled as `ℤ`.
* The two's-complement masking idioms are embedded arithmetically where a
  full-width mask is taken: `prod & 0xFFFFFFFF` becomes `prod % 0x100000000`
  (`Int.emod`, which is exactly Python's nonnegative `%`), and the
  `np.int32` cast of the masked value becomes the conditional subtraction
  of `0x100000000`.  The single-bit sign test `value & 0x80000000` is
  embedded as `0x80000000 ≤ value % 0x100000000`; the lemma
  `land_sign_bit_iff` below proves this equal to the bitwise reading
  `Int.land value 0x80000000 ≠ 0` for every integer, so nothing is lost.
-/

set_option maxRecDepth 10000

set_option allowUnsafeReducibility true

attribute [local semireducible] Rat.add Rat.mul Rat.sub Rat.neg Rat.div Rat.inv

namespace FixedPointQ16_16

/-- Model of `np.round` on an exact rational argument: round to the nearest
integer, ties going to the even integer (IEEE round-half-even, which is what
`np.round` implements). -/
def npRound (q : ℚ) : ℤ :=
  let f : ℤ := Int.fdiv q.num q.den
  let r : ℚ := q - (f : ℚ)
  if r < 1/2 then f
  else if 1/2 < r then f + 1
  else if f % 2 = 0 then f else f + 1

/-- `FixedPointQ16_16.to_fixed` (reference_model.py lines 10-12):
`int(np.round(value * (1 << 16)))`. -/
def to_fixed (value : ℚ) : ℤ :=
  npRound (value * 65536)

/-- `FixedPointQ16_16.to_float` (reference_model.py lines 14-20):
the test `value & 0x80000000` is embedded as
`0x80000000 ≤ value % 0x100000000` (see `land_sign_bit_iff`), then
`value = value - 0x100000000` on the signed branch and division by
`1 << 16`. -/
def to_float (value : ℤ) : ℚ :=
  let value := if 0x80000000 ≤ value % 0x100000000 then value - 0x100000000 else value
  (value : ℚ) / 65536

/-- `FixedPointQ16_16.mult` (reference_model.py lines 22-29): the operands are
widened to `np.int64` (no overflow is possible there for 32-bit inputs, so
plain `ℤ` product), shifted right arithmetically by 16 (`Int.shiftRight` has
exactly the two's-complement semantics of numpy's `>>`), masked with
`0xFFFFFFFF` (embedded as `% 0x100000000`) and cast to `np.int32`
(conditional subtraction). -/
def mult (a b : ℤ) : ℤ :=
  let prod : ℤ := (a * b) >>> (16 : ℕ)
  let masked : ℤ := prod % 0x100000000
  if masked < 0x80000000 then masked else masked - 0x100000000

end FixedPointQ16_16

/-- The value of `Nat.ldiff` against a single-bit mask. -/
theorem ldiff_two_pow (i m : ℕ) :
    Nat.ldiff (2 ^ i) m = if m.testBit i then 0 else 2 ^ i := by
  apply Nat.eq_of_testBit_eq
  intro k
  rw [Nat.testBit_ldiff]
  by_cases h : m.testBit i
  · simp only [h, if_true]
    by_cases hk : i = k
    · subst hk; simp [Nat.testBit_two_pow, h]
    · simp [Nat.testBit_two_pow, hk]
  · simp only [h, if_false]
    by_cases hk : i = k
    · subst hk; simp [Nat.testBit_two_pow, h]
    · simp [Nat.testBit_two_pow, hk]

/-- A natural number's bit 31 is set exactly when its residue modulo `2^32`
is at least `2^31`. -/
theorem nat_sign_bit_iff (n : ℕ) :
    n &&& 0x80000000 ≠ 0 ↔ 0x80000000 ≤ n % 0x100000000 := by
  have h31 : (0x80000000 : ℕ) = 2 ^ 31 := by norm_num
  have hmul : (0x100000000 : ℕ) = 2 ^ 31 * 2 := by norm_num
  rw [h31, hmul, Nat.and_two_pow, Nat.mod_mul]
  have h1 : n % 2 ^ 31 < 2 ^ 31 := Nat.mod_lt _ (by norm_num)
  have h2 : n / 2 ^ 31 % 2 < 2 := Nat.mod_lt _ (by norm_num)
  have hbit : n.testBit 31 = decide (n / 2 ^ 31 % 2 = 1) := Nat.testBit_to_div_mod
  by_cases hq : n / 2 ^ 31 % 2 = 1
  · have hb : n.testBit 31 = true := by rw [hbit]; simpa using hq
    rw [hb]
    simp only [Bool.toNat_true, one_mul]
    constructor
    · intro _; omega
    · intro _; positivity
  · have hq0 : n / 2 ^ 31 % 2 = 0 := by omega
    have hb : n.testBit 31 = false := by rw [hbit]; simpa using hq
    rw [hb]
    simp only [Bool.toNat_false, zero_mul]
    constructor
    · intro hc; omega
    · intro hc; omega

/-- The Python truthiness test `value & 0x80000000` used by the source's
`to_float` and `load_eeg_mem_file` coincides with the arithmetic test the
embedding uses, for every integer. -/
theorem land_sign_bit_iff (v : ℤ) :
    Int.land v 0x80000000 ≠ 0 ↔ 0x80000000 ≤ v % 0x100000000 := by
  cases v with
  | ofNat n =>
    have hland : Int.land (Int.ofNat n) 0x80000000 = ((n &&& 0x80000000 : ℕ) : ℤ) := rfl
    have hofn : Int.ofNat n = (n : ℤ) := rfl
    rw [hland, hofn]
    have h := nat_sign_bit_iff n
    constructor
    · intro hc
      have hnat : n &&& 0x80000000 ≠ 0 := by exact_mod_cast hc
      have := h.mp hnat
      omega
    · intro hc
      have hnat : 0x80000000 ≤ n % 0x100000000 := by omega
      have := h.mpr hnat
      exact_mod_cast this
  | negSucc m =>
    have hland : Int.land (Int.negSucc m) 0x80000000 = ((Nat.ldiff 0x80000000 m : ℕ) : ℤ) := rfl
    have h31 : (0x80000000 : ℕ) = 2 ^ 31 := by norm_num
    have hldiff : Nat.ldiff 0x80000000 m = if m.testBit 31 then 0 else 0x80000000 := by
      rw [h31, ldiff_two_pow]
    have hbit : m.testBit 31 = decide (m / 2 ^ 31 % 2 = 1) := Nat.testBit_to_div_mod
    have hmod : m % (2 ^ 31 * 2) = m % 2 ^ 31 + 2 ^ 31 * (m / 2 ^ 31 % 2) := Nat.mod_mul
    have hm32 : m % 4294967296 = m % 2147483648 + 2147483648 * (m / 2147483648 % 2) := by
      norm_num at hmod
      exact hmod
    have h1 : m % 2147483648 < 2147483648 := Nat.mod_lt _ (by norm_num)
    have h2 : m / 2147483648 % 2 < 2 := Nat.mod_lt _ (by norm_num)
    have hns : Int.negSucc m = -(m : ℤ) - 1 := by
      rw [Int.negSucc_eq]; ring
    rw [hland, hldiff, hns]
    by_cases hq : m / 2147483648 % 2 = 1
    · have hb : m.testBit 31 = true := by
        rw [hbit]; norm_num; exact hq
      rw [hb]
      simp only [if_true]
      constructor
      · intro hc
        exact absurd (by norm_num : ((0 : ℕ) : ℤ) = 0) hc
      · intro hc
        exfalso
        omega
    · have hq0 : m / 2147483648 % 2 = 0 := by omega
      have hb : m.testBit 31 = false := by
        rw [hbit]; norm_num; exact hq0
      rw [hb]
      simp only [Bool.false_eq_true, if_false]
      constructor
      · intro _
        omega
      · intro _
        norm_num

/-- Python built-in `abs` on a float (modelled as ℚ). -/
def pyabs (x : ℚ) : ℚ := if x < 0 then -x else x

namespace NeuralCompressorReference

/-- `self.b_coeff` (reference_model.py lines 38-44), plain Python ints. -/
def b_coeff : List ℤ := [0x00000D6B, 0x00000000, -0x0000A5A6, 0x00000000, 0x00000D6B]

/-- `self.a_coeff` (reference_model.py lines 46-52), plain Python ints. -/
def a_coeff : List ℤ := [0x00010000, -0x000270A4, 0x0002B852, -0x0001B333, 0x00003D71]

/-- `self.b_float` (reference_model.py line 55). -/
def b_float : List ℚ := b_coeff.map FixedPointQ16_16.to_float

/-- `self.a_float` (reference_model.py line 56). -/
def a_float : List ℚ := a_coeff.map FixedPointQ16_16.to_float

/-- `self.spike_threshold` (line 59). -/
def spike_threshold : ℚ := FixedPointQ16_16.to_float 0x00050000

/-- `self.window_size` (line 60). -/
def window_size : ℕ := 32

/-- `self.refractory_period` (line 61). -/
def refractory_period : ℕ := 8

/-- `self.rle_threshold` (line 64). -/
def rle_threshold : ℚ := FixedPointQ16_16.to_float 0x00001999

/-- `self.max_run_length` (line 65). -/
def max_run_length : ℕ := 255

/-- Dot product of a coefficient list with a (possibly shorter) history list;
missing history entries are the zero initial conditions of `scipy.signal.lfilter`. -/
def dot : List ℚ → List ℚ → ℚ
  | c :: cs, v :: vs => c * v + dot cs vs
  | _, _ => 0

/-- One-sample-at-a-time direct form of `scipy.signal.lfilter b a`:
`y[n] = (Σ_i b[i]·x[n-i] − Σ_{i≥1} a[i]·y[n-i]) / a[0]` with zero initial
state, in exact rational arithmetic.  `xh` and `yh` hold the last four
inputs and outputs, most recent first. -/
def lfilterGo (b a1 : List ℚ) (a0 : ℚ) : List ℚ → List ℚ → List ℚ → List ℚ
  | [], _, _ => []
  | x :: xs, xh, yh =>
    let y := (dot b (x :: xh) - dot a1 yh) / a0
    y :: lfilterGo b a1 a0 xs ((x :: xh).take 4) ((y :: yh).take 4)

/-- `NeuralCompressorReference.filter_signal` (reference_model.py lines 67-70):
`signal.lfilter(self.b_float, self.a_float, data)`, modelled by the
difference equation lfilter implements, in exact rational arithmetic. -/
def filter_signal (data : List ℚ) : List ℚ :=
  lfilterGo b_float a_float.tail (a_float.headD 1) data [] []

/-- The loop of `detect_spikes` (reference_model.py lines 78-86), which walks
the samples from index `window_size` on, carrying the refractory counter. -/
def detectGo : List ℚ → ℕ → List Bool
  | [], _ => []
  | x :: xs, c =>
    if 0 < c then false :: detectGo xs (c - 1)
    else if spike_threshold < pyabs x then true :: detectGo xs refractory_period
    else false :: detectGo xs c

/-- `NeuralCompressorReference.detect_spikes` (reference_model.py lines 72-88):
`spikes` starts as all-False; indices below `window_size` are never written. -/
def detect_spikes (data : List ℚ) : List Bool :=
  (data.take window_size).map (fun _ => false) ++ detectGo (data.drop window_size) 0

end NeuralCompressorReference

/-- A compression packet.  The source keeps two parallel lists (`compressed`
and `packet_types` with codes 0=delta, 1=RLE, 2=spike, 3=literal,
reference_model.py line 92); here the tagged value carries the payload and
`ptype` recovers the numeric code.  `literal` is defined by the format but
never produced by the encoder. -/
inductive Packet where
  | delta (value : ℚ)
  | rle (count : ℕ) (value : ℚ)
  | spike (value : ℚ)
  | literal (value : ℚ)
deriving DecidableEq, Repr

/-- The numeric packet-type code appended to `packet_types` by the source. -/
def ptype : Packet → ℕ
  | .delta _ => 0
  | .rle _ _ => 1
  | .spike _ => 2
  | .literal _ => 3

namespace NeuralCompressorReference

/-- The mutable locals of `compress_signal` (reference_model.py lines 94-97). -/
structure EncState where
  prev_value : ℚ
  run_count : ℕ
  run_value : ℚ
  in_run : Bool
deriving DecidableEq, Repr

/-- The initial encoder state (reference_model.py lines 94-97). -/
def encInit : EncState :=
  { prev_value := 0, run_count := 0, run_value := 0, in_run := false }

/-- One iteration of the `for i, value in enumerate(data)` loop of
`compress_signal` (reference_model.py lines 99-144): the packets it appends
and the updated state. -/
def encStep (st : EncState) (value : ℚ) (sp : Bool) : List Packet × EncState :=
  match sp with
  | true =>
    let r1 :=
      if st.in_run = true ∧ 0 < st.run_count then
        ([Packet.rle st.run_count st.run_value],
         { st with in_run := false, run_count := 0 })
      else ([], st)
    (r1.1 ++ [Packet.spike value], { r1.2 with prev_value := value })
  | false =>
    let delta := value - st.prev_value
    if pyabs delta < rle_threshold then
      let st1 :=
        if st.in_run = false then
          { st with run_value := value, run_count := 1, in_run := true }
        else
          { st with run_count := st.run_count + 1 }
      if max_run_length ≤ st1.run_count then
        ([Packet.rle st1.run_count st1.run_value],
         { st1 with prev_value := st1.run_value, in_run := false, run_count := 0 })
      else ([], st1)
    else
      let r1 :=
        if st.in_run = true ∧ 0 < st.run_count then
          ([Packet.rle st.run_count st.run_value],
           { st with prev_value := st.run_value, in_run := false, run_count := 0 })
        else ([], st)
      (r1.1 ++ [Packet.delta delta], { r1.2 with prev_value := value })

/-- The whole per-sample loop of `compress_signal` over the zipped
`(data[i], spikes[i])` pairs (the loop accesses `spikes[i]` for each index of
`data`; the two lists always have equal length at the call site). -/
def encodeSteps (st : EncState) : List (ℚ × Bool) → List Packet × EncState
  | [] => ([], st)
  | (value, sp) :: rest =>
    let r1 := encStep st value sp
    let r2 := encodeSteps r1.2 rest
    (r1.1 ++ r2.1, r2.2)

/-- The end-of-stream flush of `compress_signal`
(reference_model.py lines 146-149): `if in_run and run_count > 0`. -/
def flushPackets (st : EncState) : List Packet :=
  if st.in_run = true ∧ 0 < st.run_count then
    [Packet.rle st.run_count st.run_value]
  else []

/-- `NeuralCompressorReference.compress_signal`
(reference_model.py lines 90-151): the per-sample loop followed by the
end-of-stream flush. -/
def compress_signal (data : List ℚ) (spikes : List Bool) : List Packet :=
  let r := encodeSteps encInit (data.zip spikes)
  r.1 ++ flushPackets r.2

/-- The result dictionary of `NeuralCompressorReference.process`
(reference_model.py lines 164-178), statistics flattened in. -/
structure ProcessResult where
  filtered : List ℚ
  spikes : List Bool
  compressed : List Packet
  packet_types : List ℕ
  input_samples : ℕ
  output_packets : ℕ
  compression_ratio : ℚ
  spike_count : ℕ
deriving Repr

/-- `NeuralCompressorReference.process` (reference_model.py lines 153-178):
filter, detect, compress, then statistics. -/
def process (input_data : List ℚ) : ProcessResult :=
  let filtered := filter_signal input_data
  let spikes := detect_spikes filtered
  let compressed := compress_signal filtered spikes
  { filtered := filtered
    spikes := spikes
    compressed := compressed
    packet_types := compressed.map ptype
    input_samples := input_data.length
    output_packets := compressed.length
    compression_ratio :=
      if 0 < input_data.length then
        (compressed.length : ℚ) / (input_data.length : ℚ) * 100
      else 0
    spike_count := spikes.count true }

end NeuralCompressorReference

/-- Truncation of a 64-bit-safe accumulator to a signed 32-bit Q16.16 value
(low 32 bits, reinterpreted as signed). -/
def trunc32 (acc : ℤ) : ℤ :=
  let masked := acc % 0x100000000
  if masked < 0x80000000 then masked else masked - 0x100000000

/-- Dot product of fixed-point coefficients with a (possibly shorter, i.e.
zero-padded) history, every product via `FixedPointQ16_16.mult`, accumulated
over ℤ (64-bit-safe). -/
def dotMult : List ℤ → List ℤ → ℤ
  | c :: cs, v :: vs => FixedPointQ16_16.mult c v + dotMult cs vs
  | _, _ => 0

/-- Modelled from the spec: the fixed-point IIR recurrence of spec section
4.2, `y[n] = Σ_{i=0..4} b[i]·x[n-i] − Σ_{i=1..4} a[i]·y[n-i]` with every
product via `FixedPoint.mul`, 64-bit-safe accumulation and final truncation
to 32-bit Q16.16, against zero-initialized history.  The hardware filter the
spec describes is not part of src/; the Python `filter_signal` uses scipy
floating point instead.  `xh`/`yh` hold the last four inputs/outputs, most
recent first. -/
def specFixedFilterGo : List ℤ → List ℤ → List ℤ → List ℤ
  | [], _, _ => []
  | x :: xs, xh, yh =>
    let y := trunc32 (dotMult NeuralCompressorReference.b_coeff (x :: xh) -
                      dotMult NeuralCompressorReference.a_coeff.tail yh)
    y :: specFixedFilterGo xs ((x :: xh).take 4) ((y :: yh).take 4)

/-- Modelled from the spec: the whole fixed-point filter pass of spec section
4.2 over a raw Q16.16 sample sequence. -/
def specFixedFilter (data : List ℤ) : List ℤ :=
  specFixedFilterGo data [] []

/-- A single hex digit character as produced by Python's `"%X"` formatting
(uppercase). -/
def hexDigitChar (n : ℕ) : Char :=
  if n < 10 then Char.ofNat (48 + n) else Char.ofNat (55 + n)

/-- The `k` base-16 digits of `u`, most significant first, zero-padded —
exactly the digit string `f"{u:0kX}"` renders for `u < 16^k`. -/
def hexDigitsBE : ℕ → ℕ → List ℕ
  | 0, _ => []
  | k + 1, u => hexDigitsBE k (u / 16) ++ [u % 16]

/-- One line written by `write_mem_file` (process_eeg.py lines 71-79):
`f"{(sample & 0xFFFFFFFF):08X}"`; the full-width mask is embedded as
`% 0x100000000` (Python `&` with an all-ones mask is exactly the nonnegative
residue). -/
def write_mem_line (sample : ℤ) : List Char :=
  (hexDigitsBE 8 (sample % 0x100000000).toNat).map hexDigitChar

/-- `write_mem_file` (process_eeg.py lines 71-79), the file modelled as its
list of lines (each line a list of characters, newline separators implicit). -/
def write_mem_file (data : List ℤ) : List (List Char) :=
  data.map write_mem_line

/-- The numeric value `int(line, 16)` assigns to one hex digit character
(Python accepts both cases; the writer only emits uppercase). -/
def hexCharVal (c : Char) : ℕ :=
  if 48 ≤ c.toNat ∧ c.toNat ≤ 57 then c.toNat - 48
  else if 65 ≤ c.toNat ∧ c.toNat ≤ 70 then c.toNat - 55
  else if 97 ≤ c.toNat ∧ c.toNat ≤ 102 then c.toNat - 87
  else 0

/-- `int(line, 16)` on a line of hex digit characters. -/
def parseHexNat (cs : List Char) : ℕ :=
  cs.foldl (fun a c => a * 16 + hexCharVal c) 0

/-- The integer `data` list built by `load_eeg_mem_file`
(reference_model.py lines 182-192): skip empty lines, parse hex, reinterpret
as signed two's complement (the test `value & 0x80000000` on the parsed
nonnegative value is `value &&& 0x80000000 ≠ 0`). -/
def load_mem_raw (lines : List (List Char)) : List ℤ :=
  lines.filterMap fun line =>
    if line = [] then none
    else
      let value := parseHexNat line
      some (if value &&& 0x80000000 ≠ 0 then (value : ℤ) - 0x100000000 else (value : ℤ))

/-- `load_eeg_mem_file` (reference_model.py lines 181-196): the parsed signed
raw values converted to Q16.16 floats. -/
def load_eeg_mem_file (lines : List (List Char)) : List ℚ :=
  (load_mem_raw lines).map FixedPointQ16_16.to_float

/-- `np.round` is the identity on values that are already integers. -/
theorem npRound_intCast (n : ℤ) : FixedPointQ16_16.npRound (n : ℚ) = n := by
  simp only [FixedPointQ16_16.npRound, Rat.num_intCast, Rat.den_intCast, Int.fdiv_one,
    Int.cast_id, sub_self]
  norm_num

/-- Unfolding of `to_float` with the branch condition explicit. -/
theorem to_float_def_if (v : ℤ) :
    FixedPointQ16_16.to_float v =
      ((if 0x80000000 ≤ v % 0x100000000 then v - 0x100000000 else v : ℤ) : ℚ) / 65536 := rfl

/-- The composite `to_fixed ∘ to_float` on a raw integer input is the
two's-complement signed reinterpretation of its low 32 bits. -/
theorem to_fixed_to_float_eq (v : ℤ) :
    FixedPointQ16_16.to_fixed (FixedPointQ16_16.to_float v)
      = if 0x80000000 ≤ v % 0x100000000 then v - 0x100000000 else v := by
  rw [to_float_def_if]
  generalize (if 0x80000000 ≤ v % 0x100000000 then v - 0x100000000 else v : ℤ) = w
  unfold FixedPointQ16_16.to_fixed
  have h1 : ((w : ℚ) / 65536) * 65536 = (w : ℚ) := by
    field_simp
  rw [h1, npRound_intCast]

/-- The arithmetic right shift by 16 in `mult` is floor division by `2^16`. -/
theorem shiftRight16_eq_fdiv (x : ℤ) : x >>> (16 : ℕ) = Int.fdiv x 65536 := by
  rw [Int.shiftRight_eq_div_pow, Int.fdiv_eq_ediv _ (by norm_num : (0 : ℤ) ≤ 65536)]
  norm_num

/-- C2: for all 32-bit signed operands, `FixedPointQ16_16.mult` equals the
signed two's-complement reinterpretation of the low 32 bits of the exact
product arithmetically shifted right by 16 (floor division by `2^16`) — it
wraps on overflow rather than saturating, for every operand pair. -/
theorem C2_mult_wraps_to_signed_low_32 (a b : ℤ)
    (ha1 : -0x80000000 ≤ a) (ha2 : a < 0x80000000)
    (hb1 : -0x80000000 ≤ b) (hb2 : b < 0x80000000) :
    FixedPointQ16_16.mult a b =
      (if Int.fdiv (a * b) 65536 % 0x100000000 < 0x80000000
       then Int.fdiv (a * b) 65536 % 0x100000000
       else Int.fdiv (a * b) 65536 % 0x100000000 - 0x100000000) := by
  simp only [FixedPointQ16_16.mult, shiftRight16_eq_fdiv]

/-- Witness for C2 at an overflowing pair: `(2^30 · 2^30) >> 16 = 2^44`,
whose low 32 bits are zero — the wrapped result is `0`, not a saturated
maximum. -/
theorem C2_mult_wraps_to_signed_low_32_witness :
    FixedPointQ16_16.mult 1073741824 1073741824 = 0 := by
  have h := C2_mult_wraps_to_signed_low_32 1073741824 1073741824
    (by norm_num) (by norm_num) (by norm_num) (by norm_num)
  rw [h]
  decide

/-- C4 counterexample: the raw 32-bit Q16.16 pattern `0x80000000` does not
round-trip to itself through `to_float` / `to_fixed`; the round trip returns
the signed value `-2^31` instead. -/
theorem C4_roundtrip_counterexample :
    FixedPointQ16_16.to_fixed (FixedPointQ16_16.to_float 0x80000000) ≠ 0x80000000 := by
  decide

/-- C4 (amended): for every raw 32-bit pattern `v`, the round trip
`to_fixed (to_float v)` equals `v` modulo `2^32` (it returns the signed
two's-complement reinterpretation of `v`), and equals `v` exactly when
`v < 2^31`. -/
theorem C4_roundtrip_amended (v : ℤ) (h1 : 0 ≤ v) (h2 : v < 0x100000000) :
    FixedPointQ16_16.to_fixed (FixedPointQ16_16.to_float v) % 0x100000000 = v % 0x100000000
    ∧ (v < 0x80000000 → FixedPointQ16_16.to_fixed (FixedPointQ16_16.to_float v) = v) := by
  simp only [to_fixed_to_float_eq]
  constructor
  · split_ifs with hc
    · omega
    · rfl
  · intro h3
    rw [if_neg (by omega)]

/-- Witness for C4 (amended) at `v = 5`. -/
theorem C4_roundtrip_amended_witness :
    (0 ≤ (5 : ℤ)) ∧ ((5 : ℤ) < 0x100000000) ∧
    (FixedPointQ16_16.to_fixed (FixedPointQ16_16.to_float 5) % 0x100000000 = 5 % 0x100000000
     ∧ ((5 : ℤ) < 0x80000000 → FixedPointQ16_16.to_fixed (FixedPointQ16_16.to_float 5) = 5)) :=
  ⟨by norm_num, by norm_num, C4_roundtrip_amended 5 (by norm_num) (by norm_num)⟩

/-- C10: `to_float` applied to a negative in-range signed input takes the
sign-adjustment branch (the Python test `value & 0x80000000` is non-zero for
every negative 32-bit value) and so returns `(v - 2^32)/65536` instead of
`v/65536`; consequently the model's own negative coefficient constants
`b_coeff[2]`, `a_coeff[1]`, `a_coeff[3]` convert to floats below `-65536`. -/
theorem C10_to_float_negative_double_adjust (v : ℤ)
    (h1 : -0x80000000 ≤ v) (h2 : v < 0) :
    Int.land v 0x80000000 ≠ 0
    ∧ FixedPointQ16_16.to_float v = ((v - 0x100000000 : ℤ) : ℚ) / 65536
    ∧ NeuralCompressorReference.b_float.getD 2 0 < -65536
    ∧ NeuralCompressorReference.a_float.getD 1 0 < -65536
    ∧ NeuralCompressorReference.a_float.getD 3 0 < -65536 := by
  have hcond : 0x80000000 ≤ v % 0x100000000 := by omega
  refine ⟨(land_sign_bit_iff v).mpr hcond, ?_, by decide, by decide, by decide⟩
  rw [to_float_def_if, if_pos hcond]

/-- Witness for C10 at `v = -1`. -/
theorem C10_to_float_negative_double_adjust_witness :
    (-0x80000000 ≤ (-1 : ℤ)) ∧ ((-1 : ℤ) < 0) ∧
    (Int.land (-1) 0x80000000 ≠ 0
     ∧ FixedPointQ16_16.to_float (-1) = (((-1) - 0x100000000 : ℤ) : ℚ) / 65536
     ∧ NeuralCompressorReference.b_float.getD 2 0 < -65536
     ∧ NeuralCompressorReference.a_float.getD 1 0 < -65536
     ∧ NeuralCompressorReference.a_float.getD 3 0 < -65536) :=
  ⟨by norm_num, by norm_num,
   C10_to_float_negative_double_adjust (-1) (by norm_num) (by norm_num)⟩

/-- C1 (code bug): the spec's fixed-point recurrence on the cold-start input
`x = [1.0, 0.0]` (raw `[0x00010000, 0]`) yields raw outputs `[0x0D6B, 8382]`
(second output `8382/65536 ≈ 0.128`), but the source's `filter_signal` — a
scipy floating-point filter fed coefficients corrupted by `to_float`'s sign
adjustment — returns a second output above `3000`, so the code does not
satisfy the claimed recurrence. -/
theorem C1_filter_signal_contradicts_fixed_point_recurrence :
    specFixedFilter [0x00010000, 0] = [0x00000D6B, 8382]
    ∧ (NeuralCompressorReference.filter_signal [1, 0]).getD 1 0 ≠ (8382 : ℚ) / 65536
    ∧ 3000 < (NeuralCompressorReference.filter_signal [1, 0]).getD 1 0 := by
  refine ⟨by decide, by decide, by decide⟩

/-- C3 (code bug): on 300 identical samples of `1.0` the pipeline emits 30
`Spike` packets (packet-type code 2), not the claimed two `RunLength` packets
and nothing else: the corrupted float coefficients make the filter output
explode past the spike threshold. -/
theorem C3_constant_input_does_not_give_two_runlength_packets :
    (NeuralCompressorReference.process (List.replicate 300 (1 : ℚ))).packet_types.count 2
      = 30 := by
  decide

namespace NeuralCompressorReference

/-- The detector loop produces one flag per sample. -/
theorem detectGo_length (xs : List ℚ) : ∀ c, (detectGo xs c).length = xs.length := by
  induction xs with
  | nil => intro c; rfl
  | cons x xs ih =>
    intro c
    unfold detectGo
    split_ifs <;> simp [ih]

/-- `detect_spikes` produces one flag per sample. -/
theorem detect_spikes_length (data : List ℚ) :
    (detect_spikes data).length = data.length := by
  simp [detect_spikes, detectGo_length, window_size]
  omega

/-- While the refractory counter is positive the detector loop only emits
`false`. -/
theorem detectGo_refractory (xs : List ℚ) :
    ∀ c j, j < c → (detectGo xs c).getD j false = false := by
  induction xs with
  | nil => intro c j _; simp [detectGo]
  | cons x xs ih =>
    intro c j h
    have hc : 0 < c := by omega
    unfold detectGo
    rw [if_pos hc]
    cases j with
    | zero => rfl
    | succ j' =>
      rw [List.getD_cons_succ]
      exact ih (c - 1) j' (by omega)

/-- A `true` flag at a position of the detector loop forces `false` flags at
the next eight positions. -/
theorem detectGo_suppress (xs : List ℚ) :
    ∀ c i j, (detectGo xs c).getD i false = true → i < j → j ≤ i + 8 →
      (detectGo xs c).getD j false = false := by
  induction xs with
  | nil => intro c i j h1 _ _; simp [detectGo] at h1
  | cons x xs ih =>
    intro c i j h1 h2 h3
    unfold detectGo at h1 ⊢
    by_cases hc : 0 < c
    · rw [if_pos hc] at h1 ⊢
      cases i with
      | zero => simp at h1
      | succ i' =>
        cases j with
        | zero => omega
        | succ j' =>
          rw [List.getD_cons_succ] at h1 ⊢
          exact ih (c - 1) i' j' h1 (by omega) (by omega)
    · rw [if_neg hc] at h1 ⊢
      by_cases ht : spike_threshold < pyabs x
      · rw [if_pos ht] at h1 ⊢
        cases i with
        | zero =>
          cases j with
          | zero => omega
          | succ j' =>
            rw [List.getD_cons_succ]
            exact detectGo_refractory xs refractory_period j'
              (by simp only [refractory_period]; omega)
        | succ i' =>
          cases j with
          | zero => omega
          | succ j' =>
            rw [List.getD_cons_succ] at h1 ⊢
            exact ih refractory_period i' j' h1 (by omega) (by omega)
      · rw [if_neg ht] at h1 ⊢
        cases i with
        | zero => simp at h1
        | succ i' =>
          cases j with
          | zero => omega
          | succ j' =>
            rw [List.getD_cons_succ] at h1 ⊢
            exact ih c i' j' h1 (by omega) (by omega)

end NeuralCompressorReference

/-- C7: the spike detector never flags a spike at an index below
`window_size` (32), whatever the sample amplitudes; in the embedding the
warm-up prefix is all-`false` by construction and the detector loop (with its
counter state) only starts at index 32, so the state is untouched during
warm-up. -/
theorem C7_no_spike_during_warmup (data : List ℚ) (i : ℕ)
    (h : i < NeuralCompressorReference.window_size) :
    (NeuralCompressorReference.detect_spikes data).getD i false = false := by
  have hws : NeuralCompressorReference.window_size = 32 := rfl
  by_cases hi : i < data.length
  · have hleft :
        i < ((data.take NeuralCompressorReference.window_size).map fun _ => false).length := by
      simp only [List.length_map, List.length_take]
      omega
    unfold NeuralCompressorReference.detect_spikes
    rw [List.getD_eq_getElem?_getD, List.getElem?_append_left hleft, List.getElem?_map]
    rcases hx : (data.take NeuralCompressorReference.window_size)[i]? with _ | v <;> simp
  · have hlen : (NeuralCompressorReference.detect_spikes data).length ≤ i := by
      rw [NeuralCompressorReference.detect_spikes_length]
      omega
    rw [List.getD_eq_getElem?_getD, List.getElem?_eq_none hlen]
    rfl

/-- Witness for C7 at a large-amplitude input and index 31. -/
theorem C7_no_spike_during_warmup_witness :
    (31 < NeuralCompressorReference.window_size) ∧
    (NeuralCompressorReference.detect_spikes (List.replicate 40 (1000000 : ℚ))).getD 31 false
      = false :=
  ⟨by decide, C7_no_spike_during_warmup (List.replicate 40 (1000000 : ℚ)) 31 (by decide)⟩

/-- C8: a spike flagged at index `i` suppresses spikes at indices `i+1`
through `i+8` (the refractory counter of 8), regardless of amplitude. -/
theorem C8_refractory_suppresses_next_eight (data : List ℚ) (i j : ℕ)
    (h1 : (NeuralCompressorReference.detect_spikes data).getD i false = true)
    (h2 : i < j) (h3 : j ≤ i + 8) :
    (NeuralCompressorReference.detect_spikes data).getD j false = false := by
  unfold NeuralCompressorReference.detect_spikes at h1 ⊢
  have hiL :
      ((data.take NeuralCompressorReference.window_size).map fun _ => false).length ≤ i := by
    by_contra hlt
    push_neg at hlt
    rw [List.getD_eq_getElem?_getD, List.getElem?_append_left hlt, List.getElem?_map] at h1
    rcases hx : (data.take NeuralCompressorReference.window_size)[i]? with _ | v <;>
      rw [hx] at h1 <;> simp at h1
  have hjL :
      ((data.take NeuralCompressorReference.window_size).map fun _ => false).length ≤ j := by
    omega
  rw [List.getD_eq_getElem?_getD, List.getElem?_append_right hiL,
    ← List.getD_eq_getElem?_getD] at h1
  rw [List.getD_eq_getElem?_getD, List.getElem?_append_right hjL,
    ← List.getD_eq_getElem?_getD]
  exact NeuralCompressorReference.detectGo_suppress
    (data.drop NeuralCompressorReference.window_size) 0 _ _ h1 (by omega) (by omega)

/-- Witness for C8: with a constant amplitude of 10 the detector fires at
index 32 and the flag at index 33 is suppressed. -/
theorem C8_refractory_suppresses_next_eight_witness :
    ((NeuralCompressorReference.detect_spikes (List.replicate 40 (10 : ℚ))).getD 32 false
        = true)
    ∧ (32 < 33) ∧ (33 ≤ 32 + 8)
    ∧ (NeuralCompressorReference.detect_spikes (List.replicate 40 (10 : ℚ))).getD 33 false
        = false :=
  ⟨by decide, by decide, by decide,
   C8_refractory_suppresses_next_eight (List.replicate 40 (10 : ℚ)) 32 33
     (by decide) (by decide) (by decide)⟩

/-- Recognizer for `Spike` packets (packet-type code 2). -/
def isSpikePacket : Packet → Bool
  | .spike _ => true
  | _ => false

namespace NeuralCompressorReference

/-- The loop invariant of `compress_signal`: when no run is open the counter
is zero, and an open run holds between 1 and 254 samples (a run reaching 255
is emitted at once by the force-emit branch). -/
def EncInv (st : EncState) : Prop :=
  (st.in_run = false → st.run_count = 0)
  ∧ (st.in_run = true → 1 ≤ st.run_count ∧ st.run_count ≤ 254)

/-- The initial encoder state satisfies the invariant. -/
theorem encInit_inv : EncInv encInit := by
  constructor <;> intro h <;> simp [encInit] at h ⊢

/-- Branch value of `encStep`: spike flag set, run open. -/
theorem encStep_true_open (st : EncState) (value : ℚ)
    (hr : st.in_run = true ∧ 0 < st.run_count) :
    encStep st value true =
      ([Packet.rle st.run_count st.run_value, Packet.spike value],
       { st with prev_value := value, in_run := false, run_count := 0 }) := by
  simp only [encStep, if_pos hr]
  rfl

/-- Branch value of `encStep`: spike flag set, no run open. -/
theorem encStep_true_closed (st : EncState) (value : ℚ)
    (hr : ¬(st.in_run = true ∧ 0 < st.run_count)) :
    encStep st value true = ([Packet.spike value], { st with prev_value := value }) := by
  simp only [encStep, if_neg hr]
  rfl

/-- Branch value of `encStep`: small delta, starting a run. -/
theorem encStep_false_run_start (st : EncState) (value : ℚ)
    (hd : pyabs (value - st.prev_value) < rle_threshold) (hir : st.in_run = false) :
    encStep st value false =
      ([], { st with run_value := value, run_count := 1, in_run := true }) := by
  simp only [encStep, if_pos hd, if_pos hir]
  rw [if_neg (by norm_num [max_run_length])]

/-- Branch value of `encStep`: small delta, extending a run short of the cap. -/
theorem encStep_false_run_cont (st : EncState) (value : ℚ)
    (hd : pyabs (value - st.prev_value) < rle_threshold) (hir : st.in_run = true)
    (hlt : st.run_count + 1 < max_run_length) :
    encStep st value false = ([], { st with run_count := st.run_count + 1 }) := by
  simp only [encStep, if_pos hd, if_neg (by simp [hir] : ¬ st.in_run = false)]
  rw [if_neg (Nat.not_le.mpr hlt)]

/-- Branch value of `encStep`: small delta hitting the 255-sample cap, which
force-emits the run. -/
theorem encStep_false_run_force (st : EncState) (value : ℚ)
    (hd : pyabs (value - st.prev_value) < rle_threshold) (hir : st.in_run = true)
    (hge : max_run_length ≤ st.run_count + 1) :
    encStep st value false =
      ([Packet.rle (st.run_count + 1) st.run_value],
       { st with prev_value := st.run_value, in_run := false, run_count := 0 }) := by
  simp only [encStep, if_pos hd, if_neg (by simp [hir] : ¬ st.in_run = false)]
  rw [if_pos hge]

/-- Branch value of `encStep`: large delta with a pending run to emit. -/
theorem encStep_false_delta_open (st : EncState) (value : ℚ)
    (hd : ¬ pyabs (value - st.prev_value) < rle_threshold)
    (hr : st.in_run = true ∧ 0 < st.run_count) :
    encStep st value false =
      ([Packet.rle st.run_count st.run_value, Packet.delta (value - st.prev_value)],
       { st with prev_value := value, in_run := false, run_count := 0 }) := by
  simp only [encStep, if_neg hd, if_pos hr]
  rfl

/-- Branch value of `encStep`: large delta, no pending run. -/
theorem encStep_false_delta_closed (st : EncState) (value : ℚ)
    (hd : ¬ pyabs (value - st.prev_value) < rle_threshold)
    (hr : ¬(st.in_run = true ∧ 0 < st.run_count)) :
    encStep st value false = ([Packet.delta (value - st.prev_value)],
      { st with prev_value := value }) := by
  simp only [encStep, if_neg hd, if_neg hr]
  rfl

/-- One encoder step preserves the invariant, emits exactly one `Spike`
packet when the flag is set and none otherwise, and only emits `RunLength`
packets with counts in `[1, 255]`. -/
theorem encStep_props (st : EncState) (value : ℚ) (sp : Bool) (h : EncInv st) :
    EncInv (encStep st value sp).2
    ∧ (encStep st value sp).1.countP isSpikePacket = (if sp then 1 else 0)
    ∧ (∀ c v, Packet.rle c v ∈ (encStep st value sp).1 → 1 ≤ c ∧ c ≤ 255) := by
  obtain ⟨hno, hyes⟩ := h
  cases sp with
  | true =>
    by_cases hr : st.in_run = true ∧ 0 < st.run_count
    · rw [encStep_true_open st value hr]
      refine ⟨⟨fun _ => rfl, fun hc => by simp at hc⟩, by simp [isSpikePacket], ?_⟩
      intro c v hm
      rcases List.mem_cons.mp hm with h1 | h1
      · obtain ⟨hc, -⟩ := Packet.rle.inj h1
        have := hyes hr.1
        omega
      · simp at h1
    · rw [encStep_true_closed st value hr]
      refine ⟨⟨fun hc => hno hc, fun hc => hyes hc⟩, by simp [isSpikePacket], ?_⟩
      intro c v hm
      simp at hm
  | false =>
    by_cases hd : pyabs (value - st.prev_value) < rle_threshold
    · by_cases hir : st.in_run = false
      · rw [encStep_false_run_start st value hd hir]
        refine ⟨⟨fun hc => by simp at hc, fun _ => by simp⟩, by simp, ?_⟩
        intro c v hm
        simp at hm
      · have hirt : st.in_run = true := by
          cases hst : st.in_run
          · exact absurd hst hir
          · rfl
        have hb := hyes hirt
        by_cases hmax : max_run_length ≤ st.run_count + 1
        · rw [encStep_false_run_force st value hd hirt hmax]
          refine ⟨⟨fun _ => rfl, fun hc => by simp at hc⟩, by simp [isSpikePacket], ?_⟩
          intro c v hm
          rcases List.mem_singleton.mp hm with h1
          obtain ⟨hc, -⟩ := Packet.rle.inj h1
          simp only [max_run_length] at hmax
          omega
        · rw [encStep_false_run_cont st value hd hirt (by omega)]
          simp only [max_run_length] at hmax
          refine ⟨⟨fun hc => by simp [hirt] at hc, fun _ => by simp; omega⟩, by simp, ?_⟩
          intro c v hm
          simp at hm
    · by_cases hr : st.in_run = true ∧ 0 < st.run_count
      · rw [encStep_false_delta_open st value hd hr]
        refine ⟨⟨fun _ => rfl, fun hc => by simp at hc⟩, by simp [isSpikePacket], ?_⟩
        intro c v hm
        rcases List.mem_cons.mp hm with h1 | h1
        · obtain ⟨hc, -⟩ := Packet.rle.inj h1
          have := hyes hr.1
          omega
        · simp at h1
      · rw [encStep_false_delta_closed st value hd hr]
        refine ⟨⟨fun hc => hno hc, fun hc => hyes hc⟩, by simp [isSpikePacket], ?_⟩
        intro c v hm
        simp at hm

/-- The whole encoder loop preserves the invariant, emits one `Spike` packet
per set flag, and only emits `RunLength` packets with counts in `[1, 255]`. -/
theorem encodeSteps_props (l : List (ℚ × Bool)) : ∀ st, EncInv st →
    EncInv (encodeSteps st l).2
    ∧ (encodeSteps st l).1.countP isSpikePacket = (l.map Prod.snd).count true
    ∧ (∀ c v, Packet.rle c v ∈ (encodeSteps st l).1 → 1 ≤ c ∧ c ≤ 255) := by
  induction l with
  | nil =>
    intro st h
    refine ⟨h, rfl, ?_⟩
    intro c v hm
    simp [encodeSteps] at hm
  | cons p rest ih =>
    intro st h
    obtain ⟨v, sp⟩ := p
    have hstep := encStep_props st v sp h
    have hrest := ih (encStep st v sp).2 hstep.1
    refine ⟨hrest.1, ?_, ?_⟩
    · show ((encStep st v sp).1 ++ (encodeSteps (encStep st v sp).2 rest).1).countP
          isSpikePacket = _
      rw [List.countP_append, hstep.2.1, hrest.2.1]
      simp only [List.map_cons, List.count_cons]
      cases sp <;> simp <;> omega
    · intro c v' hm
      rw [show (encodeSteps st ((v, sp) :: rest)).1
            = (encStep st v sp).1 ++ (encodeSteps (encStep st v sp).2 rest).1 from rfl,
        List.mem_append] at hm
      rcases hm with h1 | h1
      · exact hstep.2.2 c v' h1
      · exact hrest.2.2 c v' h1

end NeuralCompressorReference

/-- C5: the encoder emits exactly one `Spike` packet per true spike flag (so
the packet count is at least the spike count), and every `RunLength` packet
has a count in `[1, 255]`. -/
theorem C5_one_spike_packet_per_flag_and_rle_bounds (data : List ℚ) (spikes : List Bool)
    (hl : spikes.length = data.length) :
    (NeuralCompressorReference.compress_signal data spikes).countP isSpikePacket
        = spikes.count true
    ∧ spikes.count true ≤ (NeuralCompressorReference.compress_signal data spikes).length
    ∧ (∀ c v, Packet.rle c v ∈ NeuralCompressorReference.compress_signal data spikes →
        1 ≤ c ∧ c ≤ 255) := by
  have hprops := NeuralCompressorReference.encodeSteps_props (data.zip spikes)
    NeuralCompressorReference.encInit NeuralCompressorReference.encInit_inv
  have hmap : (data.zip spikes).map Prod.snd = spikes :=
    List.map_snd_zip data spikes (le_of_eq hl)
  have hcompress :
      NeuralCompressorReference.compress_signal data spikes
        = (NeuralCompressorReference.encodeSteps NeuralCompressorReference.encInit
            (data.zip spikes)).1
          ++ NeuralCompressorReference.flushPackets
              (NeuralCompressorReference.encodeSteps NeuralCompressorReference.encInit
                (data.zip spikes)).2 := rfl
  have hflush_spike :
      (NeuralCompressorReference.flushPackets
        (NeuralCompressorReference.encodeSteps NeuralCompressorReference.encInit
          (data.zip spikes)).2).countP isSpikePacket = 0 := by
    unfold NeuralCompressorReference.flushPackets
    split_ifs <;> simp [isSpikePacket]
  have hflush_rle : ∀ c v,
      Packet.rle c v ∈ NeuralCompressorReference.flushPackets
        (NeuralCompressorReference.encodeSteps NeuralCompressorReference.encInit
          (data.zip spikes)).2 → 1 ≤ c ∧ c ≤ 255 := by
    intro c v hm
    unfold NeuralCompressorReference.flushPackets at hm
    split_ifs at hm with hcond
    · have h1 := List.mem_singleton.mp hm
      obtain ⟨hc, -⟩ := Packet.rle.inj h1
      have := hprops.1.2 hcond.1
      omega
    · simp at hm
  have hcount :
      (NeuralCompressorReference.compress_signal data spikes).countP isSpikePacket
        = spikes.count true := by
    rw [hcompress, List.countP_append, hprops.2.1, hmap, hflush_spike]
    omega
  refine ⟨hcount, ?_, ?_⟩
  · calc spikes.count true
        = (NeuralCompressorReference.compress_signal data spikes).countP isSpikePacket :=
          hcount.symm
      _ ≤ (NeuralCompressorReference.compress_signal data spikes).length :=
          List.countP_le_length isSpikePacket
  · intro c v hm
    rw [hcompress, List.mem_append] at hm
    rcases hm with h1 | h1
    · exact hprops.2.2 c v h1
    · exact hflush_rle c v h1

/-- Witness for C5 on a concrete input with one spike flag. -/
theorem C5_one_spike_packet_per_flag_and_rle_bounds_witness :
    ([false, true] : List Bool).length = ([0, 100] : List ℚ).length
    ∧ ((NeuralCompressorReference.compress_signal [0, 100] [false, true]).countP isSpikePacket
        = ([false, true] : List Bool).count true
      ∧ ([false, true] : List Bool).count true
          ≤ (NeuralCompressorReference.compress_signal [0, 100] [false, true]).length
      ∧ (∀ c v,
          Packet.rle c v ∈ NeuralCompressorReference.compress_signal [0, 100] [false, true] →
            1 ≤ c ∧ c ≤ 255)) :=
  ⟨rfl, C5_one_spike_packet_per_flag_and_rle_bounds [0, 100] [false, true] rfl⟩

/-- C6: compression is the per-sample packet stream followed by exactly one
end-of-stream flush; the flush emits the single packet
`RunLength(run_count, run_value)` exactly when a run is open in the final
loop state (its count then being positive, by the loop invariant), and
nothing otherwise — so the open run never survives compression. -/
theorem C6_flush_exactly_once_at_end_of_stream (data : List ℚ) (spikes : List Bool) :
    NeuralCompressorReference.compress_signal data spikes
      = (NeuralCompressorReference.encodeSteps NeuralCompressorReference.encInit
          (data.zip spikes)).1
        ++ NeuralCompressorReference.flushPackets
            (NeuralCompressorReference.encodeSteps NeuralCompressorReference.encInit
              (data.zip spikes)).2
    ∧ ((NeuralCompressorReference.encodeSteps NeuralCompressorReference.encInit
          (data.zip spikes)).2.in_run = true →
        NeuralCompressorReference.flushPackets
            (NeuralCompressorReference.encodeSteps NeuralCompressorReference.encInit
              (data.zip spikes)).2
          = [Packet.rle
              (NeuralCompressorReference.encodeSteps NeuralCompressorReference.encInit
                (data.zip spikes)).2.run_count
              (NeuralCompressorReference.encodeSteps NeuralCompressorReference.encInit
                (data.zip spikes)).2.run_value])
    ∧ ((NeuralCompressorReference.encodeSteps NeuralCompressorReference.encInit
          (data.zip spikes)).2.in_run = false →
        NeuralCompressorReference.flushPackets
            (NeuralCompressorReference.encodeSteps NeuralCompressorReference.encInit
              (data.zip spikes)).2 = []) := by
  have hinv := (NeuralCompressorReference.encodeSteps_props (data.zip spikes)
    NeuralCompressorReference.encInit NeuralCompressorReference.encInit_inv).1
  refine ⟨rfl, ?_, ?_⟩
  · intro h
    have hrc := hinv.2 h
    unfold NeuralCompressorReference.flushPackets
    rw [if_pos ⟨h, by omega⟩]
  · intro h
    unfold NeuralCompressorReference.flushPackets
    rw [if_neg (by simp [h])]

/-- `int(line, 16)` inverts the hex-digit rendering on each digit value. -/
theorem hexCharVal_hexDigitChar : ∀ d < 16, hexCharVal (hexDigitChar d) = d := by
  decide

/-- Every entry of the digit expansion is a base-16 digit. -/
theorem hexDigitsBE_lt (k : ℕ) : ∀ u, ∀ d ∈ hexDigitsBE k u, d < 16 := by
  induction k with
  | zero => intro u d hd; simp [hexDigitsBE] at hd
  | succ k ih =>
    intro u d hd
    rw [show hexDigitsBE (k + 1) u = hexDigitsBE k (u / 16) ++ [u % 16] from rfl,
      List.mem_append] at hd
    rcases hd with h1 | h1
    · exact ih (u / 16) d h1
    · rw [List.mem_singleton.mp h1]
      exact Nat.mod_lt _ (by norm_num)

/-- Folding the big-endian digits of `u` back into a number recovers
`u % 16^k`. -/
theorem foldl_hexDigitsBE (k : ℕ) : ∀ u a,
    List.foldl (fun x d => x * 16 + d) a (hexDigitsBE k u) = a * 16 ^ k + u % 16 ^ k := by
  induction k with
  | zero => intro u a; simp [hexDigitsBE, Nat.mod_one]
  | succ k ih =>
    intro u a
    rw [show hexDigitsBE (k + 1) u = hexDigitsBE k (u / 16) ++ [u % 16] from rfl,
      List.foldl_append, ih (u / 16) a]
    simp only [List.foldl_cons, List.foldl_nil]
    have hm : u % 16 ^ (k + 1) = u % 16 + 16 * (u / 16 % 16 ^ k) := by
      rw [pow_succ, Nat.mul_comm (16 ^ k) 16]
      exact Nat.mod_mul
    rw [hm, pow_succ]
    ring

/-- Replacing each digit by its character and reading it back does not change
the fold. -/
theorem foldl_hexChar_eq (ds : List ℕ) : ∀ a, (∀ d ∈ ds, d < 16) →
    List.foldl (fun x d => x * 16 + hexCharVal (hexDigitChar d)) a ds
      = List.foldl (fun x d => x * 16 + d) a ds := by
  induction ds with
  | nil => intro a _; rfl
  | cons d ds ih =>
    intro a h
    simp only [List.foldl_cons]
    rw [hexCharVal_hexDigitChar d (h d (List.mem_cons_self d ds)),
      ih _ (fun x hx => h x (List.mem_cons_of_mem d hx))]

/-- Parsing the 8-hex-digit rendering of `u < 16^8` recovers `u`. -/
theorem parseHexNat_hexDigits (u : ℕ) (h : u < 16 ^ 8) :
    parseHexNat ((hexDigitsBE 8 u).map hexDigitChar) = u := by
  unfold parseHexNat
  rw [List.foldl_map, foldl_hexChar_eq _ _ (hexDigitsBE_lt 8 u), foldl_hexDigitsBE]
  have h' : u < 4294967296 := by norm_num at h; exact h
  simp [Nat.mod_eq_of_lt, h']

/-- A written line is never empty (it always has eight digits). -/
theorem write_mem_line_ne_nil (s : ℤ) : write_mem_line s ≠ [] := by
  unfold write_mem_line
  rw [show hexDigitsBE 8 (s % 0x100000000).toNat
      = hexDigitsBE 7 ((s % 0x100000000).toNat / 16) ++ [(s % 0x100000000).toNat % 16]
    from rfl]
  simp

/-- C9: writing any sequence of in-range signed 32-bit Q16.16 raw values with
the sample-file writer and re-reading it with the sample-file reader
reproduces the exact original sequence. -/
theorem C9_mem_file_roundtrip (samples : List ℤ)
    (h : ∀ s ∈ samples, -0x80000000 ≤ s ∧ s < 0x80000000) :
    load_mem_raw (write_mem_file samples) = samples := by
  induction samples with
  | nil => rfl
  | cons s rest ih =>
    have hs := h s (List.mem_cons_self s rest)
    have hrest := ih (fun x hx => h x (List.mem_cons_of_mem s hx))
    show load_mem_raw (write_mem_line s :: write_mem_file rest) = s :: rest
    unfold load_mem_raw
    rw [List.filterMap_cons]
    simp only [if_neg (write_mem_line_ne_nil s)]
    rw [show (List.filterMap _ (write_mem_file rest) : List ℤ)
        = load_mem_raw (write_mem_file rest) from rfl, hrest]
    have hm0 : (0 : ℤ) ≤ s % 0x100000000 := Int.emod_nonneg s (by norm_num)
    have hm1 : s % 0x100000000 < 0x100000000 := Int.emod_lt_of_pos s (by norm_num)
    have hcast : ((s % 0x100000000).toNat : ℤ) = s % 0x100000000 :=
      Int.toNat_of_nonneg hm0
    have hval : parseHexNat (write_mem_line s) = (s % 0x100000000).toNat := by
      unfold write_mem_line
      exact parseHexNat_hexDigits _ (by norm_num at hm1 ⊢; omega)
    rw [hval]
    rcases le_or_lt 0 s with hpos | hneg
    · have hmod : s % 0x100000000 = s := Int.emod_eq_of_lt hpos (by omega)
      have hu : (s % 0x100000000).toNat < 0x80000000 := by omega
      have hland : (s % 0x100000000).toNat &&& 0x80000000 = 0 := by
        by_contra hc
        have := (nat_sign_bit_iff _).mp hc
        have : (s % 0x100000000).toNat % 0x100000000 = (s % 0x100000000).toNat :=
          Nat.mod_eq_of_lt (by omega)
        omega
      rw [if_neg (by simp [hland])]
      congr 1
      omega
    · have hmod : s % 0x100000000 = s + 0x100000000 := by omega
      have hu : 0x80000000 ≤ (s % 0x100000000).toNat := by omega
      have hland : (s % 0x100000000).toNat &&& 0x80000000 ≠ 0 := by
        apply (nat_sign_bit_iff _).mpr
        have : (s % 0x100000000).toNat % 0x100000000 = (s % 0x100000000).toNat :=
          Nat.mod_eq_of_lt (by omega)
        omega
      rw [if_pos hland]
      congr 1
      omega

/-- Witness for C9 on the two-sample file `[0x00010000, -1]`. -/
theorem C9_mem_file_roundtrip_witness :
    (∀ s ∈ ([65536, -1] : List ℤ), -0x80000000 ≤ s ∧ s < 0x80000000)
    ∧ load_mem_raw (write_mem_file [65536, -1]) = [65536, -1] :=
  ⟨by decide, C9_mem_file_roundtrip [65536, -1] (by decide)⟩
